import Mathlib

/-!
A verification development for the `go-deep-research` research-orchestration
engine.  The definitions below are a shallow embedding of the Go source:

* the concurrent summarizer `summarizeWebSearchResult` (worker emissions,
  the fan-in drain loop, the compressed-notes append);
* the web-research tool-call loop `WebResearchWorkflow.Execute`;
* the clarify workflow `ClarifyWithUserWorkflow.Execute`, the brief and
  report workflows, and the session runner `ChatSession.Run`.

External capability calls (chat completion, structured completion, the
search HTTP endpoint, JSON decoding of tool arguments) are modelled as
oracle functions supplied as parameters; the nondeterministic completion
order of the summarizer workers is modelled by an explicit arrival
sequence constrained to be an interleaving of the per-worker emission
sequences (each worker sends its items into the shared channel in
program order, so per-job order is preserved while jobs interleave
arbitrarily).
-/

namespace DeepResearch

/-- The structured-output schema `SummarizedResearchOutputSchema` of a
single summarization job: `summary` and `key_excerpts`. -/
structure SummarizedResearchOutputSchema where
  summary : String
  keyExcerpts : String
deriving Repr, DecidableEq

/-- The worker's `fmt.Sprintf("<summary>\n%s\n</summary>\n<key_excerpts>\n%s\n</key_excerpts>", ...)`
applied to a decoded summarization result. -/
def formatSummary (s : SummarizedResearchOutputSchema) : String :=
  "<summary>\n" ++ s.summary ++ "\n</summary>\n<key_excerpts>\n" ++
    s.keyExcerpts ++ "\n</key_excerpts>"

/-- The `resultItem` struct sent on the summarizer's result channel:
an index, a formatted summary, and an optional error. -/
structure ResultItem where
  index : Nat
  summary : String
  err : Option String
deriving Repr, DecidableEq

/-- Outcome of the two fallible calls a worker makes for one job:
`PromptBuilder` may fail, the structured completion may fail, or both
succeed with a decoded schema value. -/
inductive JobOutcome where
  | promptError (e : String)
  | completionError (e : String)
  | success (s : SummarizedResearchOutputSchema)
deriving Repr, DecidableEq

/-- Whether a job outcome is a success. -/
def JobOutcome.isSuccess : JobOutcome → Bool
  | .success _ => true
  | _ => false

/-- The sequence of items one worker sends to the result channel while
processing the job with the given index, as written in the source worker
body.  A `PromptBuilder` failure sends one error item and `continue`s.
A completion failure sends an error item but — there being no `continue`
in that branch — falls through and additionally sends the zero-valued
schema formatted as a success item.  A success sends one formatted item. -/
def jobEmissions : JobOutcome → Nat → List ResultItem
  | .promptError e, idx => [⟨idx, "", some ("failed to build prompt: " ++ e)⟩]
  | .completionError e, idx =>
      [⟨idx, "", some ("failed to summarize: " ++ e)⟩,
       ⟨idx, formatSummary ⟨"", ""⟩, none⟩]
  | .success s, idx => [⟨idx, formatSummary s, none⟩]

/-- The per-job emission sequences for a batch: job `i` summarizes
document `i` of `results`, its outcome given by the oracle applied to
the document text. -/
def jobsOf (oracle : String → JobOutcome) (results : List String) :
    List (List ResultItem) :=
  (List.range results.length).map fun i => jobEmissions (oracle (results.getD i "")) i

/-- Predicate: `arrivals` is a possible order in which the result channel delivers
the items of the per-job emission sequences `ls`: at each step the next
delivered item is the earliest still-pending item of some job, so each
job's items arrive in program order while distinct jobs interleave
arbitrarily (the Go channel is FIFO per sender). -/
inductive Interleaves : List (List ResultItem) → List ResultItem → Prop where
  | nil : ∀ ls, (∀ l ∈ ls, l = []) → Interleaves ls []
  | cons : ∀ (ls : List (List ResultItem)) (i : Nat) (x : ResultItem)
      (rest : List ResultItem) (out : List ResultItem),
      ls.get? i = some (x :: rest) → Interleaves (ls.set i rest) out →
      Interleaves ls (x :: out)

/-- The orchestrator's fan-in loop: read `n` items off the channel,
returning the first error immediately, otherwise writing each summary
into the pre-allocated slice at the item's index.  `none` models the
loop blocking because fewer than `n` items ever arrive (which cannot
happen for a valid interleaving). -/
def drain : Nat → List ResultItem → List String → Option (Except String (List String))
  | 0, _, notes => some (.ok notes)
  | _ + 1, [], _ => none
  | n + 1, r :: rest, notes =>
    match r.err with
    | some e => some (.error e)
    | none => drain n rest (notes.set r.index r.summary)

/-- The value `min(len(results), 5)`: the number of workers the summarizer spawns. -/
def numWorkers (results : List String) : Nat :=
  min results.length 5

/-- The function `summarizeWebSearchResult`: reject an empty batch, otherwise drain
`len(results)` items (delivered in order `arrivals`), and on success
join the reordered summaries with newlines and append them to the
compressed-notes list.  The returned pair carries the final value of the
compressed-notes list, which the source mutates only after the drain
loop finishes without error. -/
def summarizeWebSearchResult (results : List String)
    (compressedResearchNotes : List String) (arrivals : List ResultItem) :
    Option (Except String String × List String) :=
  if results.length = 0 then
    some (.error "no results to summarize", compressedResearchNotes)
  else
    match drain results.length arrivals (List.replicate results.length "") with
    | none => none
    | some (.error e) => some (.error e, compressedResearchNotes)
    | some (.ok summarized) =>
        some (.ok (String.intercalate "\n" summarized),
          compressedResearchNotes ++ summarized)

/-- Extracting the head of slot `i` is a permutation-preserving step. -/
lemma flatten_set_perm (ls : List (List ResultItem)) (i : Nat) (x : ResultItem)
    (rest : List ResultItem) (h : ls.get? i = some (x :: rest)) :
    ls.flatten.Perm (x :: (ls.set i rest).flatten) := by
  induction ls generalizing i with
  | nil => simp at h
  | cons l t ih =>
    cases i with
    | zero =>
      simp only [List.get?] at h
      cases h
      simp
    | succ i =>
      simp only [List.get?] at h
      have hp := ih i h
      have h1 : (l ++ t.flatten).Perm (l ++ (x :: (t.set i rest).flatten)) :=
        List.Perm.append_left l hp
      have h2 : (l ++ (x :: (t.set i rest).flatten)).Perm
          (x :: (l ++ (t.set i rest).flatten)) := List.perm_middle
      simpa using h1.trans h2

/-- If every slot is empty, the flattened list is empty. -/
lemma flatten_eq_nil_of_all_nil (ls : List (List ResultItem))
    (h : ∀ l ∈ ls, l = []) : ls.flatten = [] := by
  induction ls with
  | nil => rfl
  | cons l t ih =>
    have hl : l = [] := h l (by simp)
    have ht : ∀ l' ∈ t, l' = [] := fun l' hm => h l' (by simp [hm])
    simp [hl, ih ht]

/-- An arrival sequence is a permutation of the concatenation of the
per-job emission sequences. -/
lemma interleaves_perm {ls : List (List ResultItem)} {out : List ResultItem}
    (h : Interleaves ls out) : out.Perm ls.flatten := by
  induction h with
  | nil ls hall => simp [flatten_eq_nil_of_all_nil ls hall]
  | cons ls i x rest out hget _ ih =>
    exact (List.Perm.cons x ih).trans (flatten_set_perm ls i x rest hget).symm

/-- Prepending an empty slot preserves interleavings. -/
lemma interleaves_cons_nil {ls : List (List ResultItem)} {out : List ResultItem}
    (h : Interleaves ls out) : Interleaves ([] :: ls) out := by
  induction h with
  | nil ls hall =>
    refine .nil _ ?_
    intro l hm
    rcases List.mem_cons.mp hm with h' | h'
    · exact h'
    · exact hall _ h'
  | cons ls i x rest out hget _ ih =>
    exact .cons ([] :: ls) (i + 1) x rest out hget ih

/-- The in-order delivery (all of job 0's items, then job 1's, ...) is a
valid interleaving; used to build concrete witnesses. -/
lemma interleaves_flatten : ∀ ls : List (List ResultItem), Interleaves ls ls.flatten := by
  intro ls
  induction ls with
  | nil => exact .nil [] (by simp)
  | cons l t ih =>
    induction l with
    | nil => simpa using interleaves_cons_nil ih
    | cons x l' ihl =>
      have h' : Interleaves (l' :: t) (l' ++ t.flatten) := by simpa using ihl
      exact .cons ((x :: l') :: t) 0 x l' (l' ++ t.flatten) rfl h'

/-- Replacing slot `i` (holding `v`) by `w` changes a mapped sum by the
difference of the two slot values. -/
lemma sum_map_set (f : List ResultItem → Nat) :
    ∀ (ls : List (List ResultItem)) (i : Nat) (v w : List ResultItem),
      ls.get? i = some v →
      f v + ((ls.set i w).map f).sum = f w + (ls.map f).sum := by
  intro ls
  induction ls with
  | nil => intro i v w h; simp at h
  | cons l t ih =>
    intro i v w h
    cases i with
    | zero =>
      simp only [List.get?] at h
      cases h
      simp only [List.set, List.map, List.sum_cons]
      omega
    | succ i =>
      simp only [List.get?] at h
      have := ih i v w h
      simp only [List.set, List.map, List.sum_cons]
      omega

/-- Length of the longest error-free prefix of one job's emission list. -/
def cap : List ResultItem → Nat
  | [] => 0
  | r :: rest => if r.err.isSome then 0 else 1 + cap rest

/-- In any interleaving, an error-free prefix is no longer than the sum
of the jobs' error-free prefix capacities: a success item can only be
delivered before every error item if its job has not erred before it. -/
lemma interleaves_errorfree_take {ls : List (List ResultItem)}
    {out : List ResultItem} (h : Interleaves ls out) :
    ∀ k, k ≤ out.length → (∀ r ∈ out.take k, r.err = none) →
      k ≤ (ls.map cap).sum := by
  induction h with
  | nil ls hall =>
    intro k hk _
    have hk0 : k = 0 := Nat.le_zero.mp (by simpa using hk)
    simp [hk0]
  | cons ls i x rest out hget _ ih =>
    intro k hk hfree
    cases k with
    | zero => exact Nat.zero_le _
    | succ k' =>
      have hx : x.err = none := by
        refine hfree x ?_
        rw [List.take_succ_cons]
        exact List.mem_cons_self x _
      have hxfree : ∀ r ∈ out.take k', r.err = none := by
        intro r hm
        refine hfree r ?_
        rw [List.take_succ_cons]
        exact List.mem_cons_of_mem x hm
      have hk' : k' ≤ out.length := by
        simp only [List.length_cons] at hk
        omega
      have hih := ih k' hk' hxfree
      have hsum := sum_map_set cap ls i (x :: rest) rest hget
      have hcap : cap (x :: rest) = 1 + cap rest := by simp [cap, hx]
      omega

/-- The fold performed by the drain loop: write each arriving summary
into its indexed slot. -/
def writeSlots (notes : List String) (out : List ResultItem) : List String :=
  out.foldl (fun ns r => ns.set r.index r.summary) notes

lemma writeSlots_nil (notes : List String) : writeSlots notes [] = notes := rfl

lemma writeSlots_cons (notes : List String) (r : ResultItem) (rest : List ResultItem) :
    writeSlots notes (r :: rest) = writeSlots (notes.set r.index r.summary) rest := rfl

lemma writeSlots_length (out : List ResultItem) :
    ∀ notes : List String, (writeSlots notes out).length = notes.length := by
  induction out with
  | nil => intro notes; rfl
  | cons r rest ih =>
    intro notes
    rw [writeSlots_cons, ih]
    simp

lemma writeSlots_get?_notmem (out : List ResultItem) :
    ∀ (notes : List String) (j : Nat), (∀ r ∈ out, r.index ≠ j) →
      (writeSlots notes out).get? j = notes.get? j := by
  induction out with
  | nil => intro notes j _; rfl
  | cons r rest ih =>
    intro notes j hnot
    rw [writeSlots_cons, ih _ _ (fun r' hm => hnot r' (List.mem_cons_of_mem r hm))]
    exact List.get?_set_ne _ _ (hnot r (List.mem_cons_self r rest))

lemma writeSlots_get?_uniform (out : List ResultItem) :
    ∀ (notes : List String) (j : Nat) (s : String), j < notes.length →
      (∃ r ∈ out, r.index = j) → (∀ r ∈ out, r.index = j → r.summary = s) →
      (writeSlots notes out).get? j = some s := by
  induction out with
  | nil =>
    intro notes j s _ hex _
    rcases hex with ⟨r, hm, _⟩
    exact absurd hm (List.not_mem_nil r)
  | cons r rest ih =>
    intro notes j s hj hex huni
    by_cases hr : ∃ r' ∈ rest, r'.index = j
    · rw [writeSlots_cons]
      refine ih _ _ _ (by simpa using hj) hr ?_
      intro r' hm hidx
      exact huni r' (List.mem_cons_of_mem r hm) hidx
    · have hidx : r.index = j := by
        rcases hex with ⟨r', hm, hidx'⟩
        rcases List.mem_cons.mp hm with h' | h'
        · exact h' ▸ hidx'
        · exact absurd ⟨r', h', hidx'⟩ hr
      have hs : r.summary = s := huni r (List.mem_cons_self r rest) hidx
      rw [writeSlots_cons]
      rw [writeSlots_get?_notmem rest _ j (fun r' hm hidx' => hr ⟨r', hm, hidx'⟩)]
      rw [hidx, hs]
      exact List.get?_set_eq_of_lt s hj

/-- If the next `n` arrivals carry no error, the drain loop succeeds and
produces exactly the indexed writes of those `n` items. -/
lemma drain_eq_ok (n : Nat) : ∀ (out : List ResultItem) (notes : List String),
    n ≤ out.length → (∀ r ∈ out.take n, r.err = none) →
    drain n out notes = some (.ok (writeSlots notes (out.take n))) := by
  induction n with
  | zero => intro out notes _ _; simp [drain, writeSlots]
  | succ n ih =>
    intro out notes hlen hfree
    cases out with
    | nil => simp at hlen
    | cons r rest =>
      have hr : r.err = none := by
        refine hfree r ?_
        rw [List.take_succ_cons]
        exact List.mem_cons_self r _
      have hfree' : ∀ x ∈ rest.take n, x.err = none := by
        intro x hm
        refine hfree x ?_
        rw [List.take_succ_cons]
        exact List.mem_cons_of_mem r hm
      have hlen' : n ≤ rest.length := by
        simp only [List.length_cons] at hlen
        omega
      simp only [drain, hr]
      rw [ih rest _ hlen' hfree', List.take_succ_cons, writeSlots_cons]

/-- If the drain loop returns a success, the first `n` arrivals carried
no error (and there were at least `n` of them). -/
lemma drain_ok_errorfree (n : Nat) : ∀ (out : List ResultItem) (notes final : List String),
    drain n out notes = some (.ok final) →
    n ≤ out.length ∧ (∀ r ∈ out.take n, r.err = none) := by
  induction n with
  | zero => intro out notes final _; simp
  | succ n ih =>
    intro out notes final h
    cases out with
    | nil => simp [drain] at h
    | cons r rest =>
      cases hr : r.err with
      | some e => simp [drain, hr] at h
      | none =>
        simp only [drain, hr] at h
        have := ih rest _ final h
        constructor
        · simp only [List.length_cons]; omega
        · intro x hm
          rw [List.take_succ_cons] at hm
          rcases List.mem_cons.mp hm with h' | h'
          · exact h' ▸ hr
          · exact this.2 x h'

/-- If at least `n` items arrive, the drain loop does not block. -/
lemma drain_ne_none (n : Nat) : ∀ (out : List ResultItem) (notes : List String),
    n ≤ out.length → drain n out notes ≠ none := by
  induction n with
  | zero => intro out notes _ h; simp [drain] at h
  | succ n ih =>
    intro out notes hlen
    cases out with
    | nil => simp at hlen
    | cons r rest =>
      cases hr : r.err with
      | some e => simp [drain, hr]
      | none =>
        have hlen' : n ≤ rest.length := by
          simp only [List.length_cons] at hlen
          omega
        simp only [drain, hr]
        exact ih rest _ hlen'

lemma length_jobEmissions (o : JobOutcome) (i : Nat) : 1 ≤ (jobEmissions o i).length := by
  cases o <;> simp [jobEmissions]

lemma cap_jobEmissions (o : JobOutcome) (i : Nat) :
    cap (jobEmissions o i) = if o.isSuccess then 1 else 0 := by
  cases o <;> simp [jobEmissions, cap, JobOutcome.isSuccess]

lemma length_le_sum_of_one_le (l : List Nat) (h : ∀ x ∈ l, 1 ≤ x) :
    l.length ≤ l.sum := by
  induction l with
  | nil => simp
  | cons x t ih =>
    have hx := h x (List.mem_cons_self x t)
    have ht := ih fun y hm => h y (List.mem_cons_of_mem x hm)
    simp only [List.length_cons, List.sum_cons]
    omega

lemma sum_le_length_of_le_one (l : List Nat) (hle : ∀ x ∈ l, x ≤ 1) :
    l.sum ≤ l.length := by
  induction l with
  | nil => simp
  | cons x t ih =>
    have hx := hle x (List.mem_cons_self x t)
    have ht := ih fun y hm => hle y (List.mem_cons_of_mem x hm)
    simp only [List.sum_cons, List.length_cons]
    omega

lemma sum_lt_length_of_zero_mem (l : List Nat) (hle : ∀ x ∈ l, x ≤ 1)
    (h0 : (0 : Nat) ∈ l) : l.sum < l.length := by
  induction l with
  | nil => simp at h0
  | cons x t ih =>
    have hxle := hle x (List.mem_cons_self x t)
    have htle : ∀ y ∈ t, y ≤ 1 := fun y hm => hle y (List.mem_cons_of_mem x hm)
    rcases List.mem_cons.mp h0 with hx0 | hx0
    · have := sum_le_length_of_le_one t htle
      simp only [List.sum_cons, List.length_cons, ← hx0]
      omega
    · have := ih htle hx0
      simp only [List.sum_cons, List.length_cons]
      omega

lemma jobsOf_length (oracle : String → JobOutcome) (results : List String) :
    (jobsOf oracle results).length = results.length := by
  simp [jobsOf]

/-- Any valid arrival sequence carries at least one item per job. -/
lemma interleaves_length_ge {oracle : String → JobOutcome} {results : List String}
    {arrivals : List ResultItem}
    (hint : Interleaves (jobsOf oracle results) arrivals) :
    results.length ≤ arrivals.length := by
  have hperm := interleaves_perm hint
  have hlen : arrivals.length = ((jobsOf oracle results).map List.length).sum := by
    rw [hperm.length_eq, List.length_flatten]
  have hone : ∀ x ∈ (jobsOf oracle results).map List.length, 1 ≤ x := by
    intro x hm
    rcases List.mem_map.mp hm with ⟨l, hl, hx⟩
    rcases List.mem_map.mp hl with ⟨i, _, hli⟩
    rw [← hx, ← hli]
    exact length_jobEmissions _ _
  have := length_le_sum_of_one_le _ hone
  simp only [List.length_map, jobsOf_length] at this
  omega

/-- If some job fails, fewer than `N` of the jobs admit an error-free
item, so the batch's error-free capacity is below `N`. -/
lemma capsum_lt_of_failure {oracle : String → JobOutcome} {results : List String}
    (i : Nat) (hi : i < results.length)
    (hfail : (oracle (results.getD i "")).isSuccess = false) :
    ((jobsOf oracle results).map cap).sum < results.length := by
  have hle : ∀ x ∈ (jobsOf oracle results).map cap, x ≤ 1 := by
    intro x hm
    rcases List.mem_map.mp hm with ⟨l, hl, hx⟩
    rcases List.mem_map.mp hl with ⟨j, _, hlj⟩
    rw [← hx, ← hlj, cap_jobEmissions]
    split <;> omega
  have h0 : (0 : Nat) ∈ (jobsOf oracle results).map cap := by
    refine List.mem_map.mpr ⟨jobEmissions (oracle (results.getD i "")) i, ?_, ?_⟩
    · exact List.mem_map.mpr ⟨i, List.mem_range.mpr hi, rfl⟩
    · rw [cap_jobEmissions, hfail]
      simp
  have := sum_lt_length_of_zero_mem _ hle h0
  simp only [List.length_map, jobsOf_length] at this
  omega

/-- C3: on an empty batch or a batch with a failed job, the summarizer
returns an error and the compressed-notes list is unchanged. -/
theorem summarizer_batch_atomic (oracle : String → JobOutcome)
    (results notes : List String) (arrivals : List ResultItem)
    (hint : Interleaves (jobsOf oracle results) arrivals)
    (hbad : results = [] ∨
      ∃ i, i < results.length ∧ (oracle (results.getD i "")).isSuccess = false) :
    ∃ e, summarizeWebSearchResult results notes arrivals = some (.error e, notes) := by
  rcases hbad with hnil | ⟨i, hi, hfail⟩
  · refine ⟨"no results to summarize", ?_⟩
    simp [summarizeWebSearchResult, hnil]
  · have hN : results.length ≠ 0 := by omega
    have hlen := interleaves_length_ge hint
    have hcap := capsum_lt_of_failure i hi hfail
    cases hdr : drain results.length arrivals (List.replicate results.length "") with
    | none => exact absurd hdr (drain_ne_none _ _ _ hlen)
    | some res =>
      cases res with
      | ok final =>
        have ⟨hle, hfree⟩ := drain_ok_errorfree _ _ _ _ hdr
        have := interleaves_errorfree_take hint results.length hle hfree
        omega
      | error e =>
        refine ⟨e, ?_⟩
        simp [summarizeWebSearchResult, hN, hdr]

lemma flatten_map_singleton (l : List Nat) (g : Nat → ResultItem) :
    (l.map fun i => [g i]).flatten = l.map g := by
  induction l with
  | nil => rfl
  | cons x t ih => simp [ih]

/-- With every job succeeding, the emission sequences are the singleton
success items. -/
lemma jobsOf_success_flatten (f : String → SummarizedResearchOutputSchema)
    (results : List String) :
    (jobsOf (fun d => .success (f d)) results).flatten =
      (List.range results.length).map
        (fun i => (⟨i, formatSummary (f (results.getD i "")), none⟩ : ResultItem)) := by
  rw [jobsOf]
  rw [show ((List.range results.length).map fun i =>
      jobEmissions (.success (f (results.getD i ""))) i) =
      ((List.range results.length).map fun i =>
        [(⟨i, formatSummary (f (results.getD i "")), none⟩ : ResultItem)]) from
    List.map_congr_left fun i _ => rfl]
  exact flatten_map_singleton _ _

/-- C2: on a non-empty batch where every summarization job succeeds, the
summarizer returns the formatted summaries joined in input order — for
any completion order — and appends exactly the `N` formatted entries, in
job-index order, to the compressed-notes list. -/
theorem summarizer_preserves_order (f : String → SummarizedResearchOutputSchema)
    (results notes : List String) (arrivals : List ResultItem)
    (hne : results ≠ [])
    (hint : Interleaves (jobsOf (fun d => .success (f d)) results) arrivals) :
    summarizeWebSearchResult results notes arrivals =
      some (.ok (String.intercalate "\n" (results.map fun d => formatSummary (f d))),
        notes ++ (results.map fun d => formatSummary (f d))) ∧
    (notes ++ (results.map fun d => formatSummary (f d))).length =
      notes.length + results.length := by
  have hN : results.length ≠ 0 := fun h => hne (List.eq_nil_of_length_eq_zero h)
  have hperm : arrivals.Perm ((List.range results.length).map
      (fun i => (⟨i, formatSummary (f (results.getD i "")), none⟩ : ResultItem))) := by
    have := interleaves_perm hint
    rwa [jobsOf_success_flatten] at this
  have hmem : ∀ r ∈ arrivals, ∃ i, i < results.length ∧
      r = ⟨i, formatSummary (f (results.getD i "")), none⟩ := by
    intro r hr
    have := hperm.mem_iff.mp hr
    rcases List.mem_map.mp this with ⟨i, hi, hri⟩
    exact ⟨i, List.mem_range.mp hi, hri.symm⟩
  have hlen : arrivals.length = results.length := by
    have := hperm.length_eq
    simpa using this
  have hfree : ∀ r ∈ arrivals, r.err = none := by
    intro r hr
    rcases hmem r hr with ⟨i, _, hre⟩
    rw [hre]
  have htake : arrivals.take results.length = arrivals := by
    rw [← hlen]
    exact List.take_length arrivals
  have hdrain : drain results.length arrivals (List.replicate results.length "") =
      some (.ok (writeSlots (List.replicate results.length "") arrivals)) := by
    have := drain_eq_ok results.length arrivals (List.replicate results.length "")
      (by omega) (by rw [htake]; exact hfree)
    rwa [htake] at this
  have hW : writeSlots (List.replicate results.length "") arrivals =
      results.map fun d => formatSummary (f d) := by
    apply List.ext
    intro j
    by_cases hj : j < results.length
    · have hjlen : j < (List.replicate results.length "").length := by simpa using hj
      have hex : ∃ r ∈ arrivals, r.index = j := by
        refine ⟨⟨j, formatSummary (f (results.getD j "")), none⟩, ?_, rfl⟩
        refine hperm.mem_iff.mpr (List.mem_map.mpr ⟨j, List.mem_range.mpr hj, rfl⟩)
      have huni : ∀ r ∈ arrivals, r.index = j →
          r.summary = formatSummary (f (results.getD j "")) := by
        intro r hr hidx
        rcases hmem r hr with ⟨i, _, hre⟩
        have hij : i = j := by rw [hre] at hidx; exact hidx
        rw [hre, hij]
      rw [writeSlots_get?_uniform arrivals _ j _ hjlen hex huni]
      rw [List.get?_map]
      rw [List.get?_eq_get hj]
      rw [List.getD_eq_get results "" hj]
      rfl
    · have h1 : (writeSlots (List.replicate results.length "") arrivals).get? j = none := by
        refine List.get?_eq_none.mpr ?_
        rw [writeSlots_length]
        simpa using Nat.le_of_not_lt hj
      have h2 : (results.map fun d => formatSummary (f d)).get? j = none := by
        refine List.get?_eq_none.mpr ?_
        simpa using Nat.le_of_not_lt hj
      rw [h1, h2]
  constructor
  · simp only [summarizeWebSearchResult, hN, if_false, hdrain, hW]
  · simp

/-- C9: the summarizer sizes its worker pool as `min(N, 5)`, which never
exceeds 5. -/
theorem worker_pool_bounded (results : List String) (hpos : 1 ≤ results.length) :
    numWorkers results = min results.length 5 ∧ 1 ≤ numWorkers results ∧
      numWorkers results ≤ 5 :=
  ⟨rfl, le_min hpos (by omega), min_le_right _ _⟩

/-- Witness for C9 at the spec's example sizes N = 12 and N = 3. -/
theorem worker_pool_bounded_witness :
    (1 ≤ (List.replicate 12 "d").length ∧
      numWorkers (List.replicate 12 "d") = min (List.replicate 12 "d").length 5 ∧
      1 ≤ numWorkers (List.replicate 12 "d") ∧
      numWorkers (List.replicate 12 "d") ≤ 5) ∧
    numWorkers (List.replicate 3 "d") = 3 :=
  ⟨⟨by simp, worker_pool_bounded (List.replicate 12 "d") (by simp)⟩, rfl⟩

/-- C4 fails on the code: a job whose completion call errors emits two
items — the error item, then (the error branch lacking a `continue`) a
spurious success item holding the zero-valued schema — and the
orchestrator returns the error as soon as it reads one error item, here
having read a single item of a batch of N = 2 (with the other item not
yet arrived), rather than draining all N results first. -/
theorem summarizer_channel_protocol_counterexample :
    (jobEmissions (.completionError "boom") 0).length = 2 ∧
    drain 2 [⟨0, "", some "failed to summarize: boom"⟩] (List.replicate 2 "") =
      some (.error "failed to summarize: boom") :=
  ⟨rfl, rfl⟩

/-- C4 amended: a job with a prompt-build failure or a success emits
exactly one item, but a job whose completion call fails emits two (the
error item followed by a spurious zero-valued success item); the
orchestrator returns the first error it reads immediately, without
draining the remaining results. -/
theorem summarizer_channel_protocol_amended (o : JobOutcome) (idx n : Nat)
    (r : ResultItem) (rest : List ResultItem) (notes : List String) (e : String)
    (h : r.err = some e) :
    (jobEmissions o idx).length =
      (match o with | .completionError _ => 2 | _ => 1) ∧
    drain (n + 1) (r :: rest) notes = some (.error e) := by
  constructor
  · cases o <;> rfl
  · simp [drain, h]

/-- Witness for the amended C4. -/
theorem summarizer_channel_protocol_amended_witness :
    (⟨0, "", some "boom"⟩ : ResultItem).err = some "boom" ∧
    ((jobEmissions (.completionError "x") 0).length = 2 ∧
      drain 2 [⟨0, "", some "boom"⟩, ⟨1, "s", none⟩] ["", ""] =
        some (.error "boom")) :=
  ⟨rfl, summarizer_channel_protocol_amended (.completionError "x") 0 1
    ⟨0, "", some "boom"⟩ [⟨1, "s", none⟩] ["", ""] "boom" rfl⟩

/-- Witness for C2 on a concrete two-document batch with in-order
delivery. -/
theorem summarizer_preserves_order_witness :
    (["doc-A", "doc-B"] : List String) ≠ [] ∧
    (summarizeWebSearchResult ["doc-A", "doc-B"] ["note-0"]
        ((jobsOf (fun d => JobOutcome.success ⟨d, d⟩) ["doc-A", "doc-B"]).flatten) =
      some (.ok (String.intercalate "\n"
          ((["doc-A", "doc-B"] : List String).map fun d => formatSummary ⟨d, d⟩)),
        ["note-0"] ++ (["doc-A", "doc-B"] : List String).map fun d => formatSummary ⟨d, d⟩) ∧
      (["note-0"] ++
          (["doc-A", "doc-B"] : List String).map fun d => formatSummary ⟨d, d⟩).length =
        (["note-0"] : List String).length + (["doc-A", "doc-B"] : List String).length) :=
  ⟨by simp, summarizer_preserves_order (fun d => ⟨d, d⟩) ["doc-A", "doc-B"] ["note-0"] _
    (by simp) (interleaves_flatten _)⟩

/-- Witness for C3 on a concrete one-document batch whose single job
fails. -/
theorem summarizer_batch_atomic_witness :
    (∃ i, i < (["doc-A"] : List String).length ∧
      (JobOutcome.completionError "boom").isSuccess = false) ∧
    ∃ e, summarizeWebSearchResult ["doc-A"] ["note-0"]
        ((jobsOf (fun _ => JobOutcome.completionError "boom") ["doc-A"]).flatten) =
      some (.error e, ["note-0"]) :=
  ⟨⟨0, by simp, rfl⟩,
    summarizer_batch_atomic (fun _ => JobOutcome.completionError "boom") ["doc-A"]
      ["note-0"] _ (interleaves_flatten _) (Or.inr ⟨0, by simp, rfl⟩)⟩

/-- One tool invocation returned by the completion: `openai.ToolCall`. -/
structure ToolCall where
  id : String
  name : String
  arguments : String
deriving Repr, DecidableEq

/-- The `openai.ChatCompletionMessage` struct as used by the session: role, content,
the tool calls of an assistant turn, and the tool-response frame fields. -/
structure Message where
  role : String
  content : String
  toolCalls : List ToolCall := []
  toolCallID : String := ""
  name : String := ""
deriving Repr, DecidableEq

/-- Oracles for each external call made by
`WebResearchWorkflow.Execute`: the chat completion over the research
ledger (prompt templating is out-of-scope plumbing and folded into the
oracle), `tools.SearchTool.Execute`, the JSON decode inside
`tools.ReflectionTool.Execute`, and the order in which the summarizer's
result channel delivers items for a given batch. -/
structure ResearchOracles where
  complete : List Message → Except String Message
  searchTool : String → Except String (List String)
  parseReflection : String → Except String String
  arrivalsOf : List String → List ResultItem

/-- The tool-role message appended after executing a tool call. -/
def toolMessage (tc : ToolCall) (content : String) : Message :=
  { role := "tool", content := content, toolCalls := [], toolCallID := tc.id,
    name := tc.name }

/-- The body of the `for _, toolCall := range msg.ToolCalls` loop of
`WebResearchWorkflow.Execute`: dispatch `search_tool` (search, then the
concurrent summarizer, then a tool-role append) and `reflection_tool`
(decode, format, tool-role append); any other name falls through both
`if` statements and is skipped.  The returned `Option String` is the
error that aborts the iteration, with the appends made so far kept. -/
def runToolCalls (O : ResearchOracles) :
    List ToolCall → List Message → List String →
    Option (List Message × List String × Option String)
  | [], msgs, notes => some (msgs, notes, none)
  | tc :: rest, msgs, notes =>
    if tc.name = "search_tool" then
      match O.searchTool tc.arguments with
      | .error e => some (msgs, notes, some ("failed to execute search tool: " ++ e))
      | .ok results =>
        match summarizeWebSearchResult results notes (O.arrivalsOf results) with
        | none => none
        | some (.error e, notes') =>
            some (msgs, notes', some ("failed to summarize web search results: " ++ e))
        | some (.ok joined, notes') =>
            runToolCalls O rest (msgs ++ [toolMessage tc joined]) notes'
    else if tc.name = "reflection_tool" then
      match O.parseReflection tc.arguments with
      | .error e => some (msgs, notes, some e)
      | .ok refl =>
          runToolCalls O rest
            (msgs ++ [toolMessage tc ("Reflection recorded: " ++ refl)]) notes
    else
      runToolCalls O rest msgs notes

/-- One iteration of `WebResearchWorkflow.Execute`: call the completion,
append its turn to the research ledger, report no continuation when the
turn has no tool calls, otherwise process the tool calls and report
continuation (there is no search-call counter anywhere in the
function). -/
def webResearchExecute (O : ResearchOracles) (msgs : List Message)
    (notes : List String) :
    Option (List Message × List String × Except String (String × Bool)) :=
  match O.complete msgs with
  | .error e => some (msgs, notes, .error ("failed to create chat completion: " ++ e))
  | .ok msg =>
    let msgs1 := msgs ++ [msg]
    if msg.toolCalls.isEmpty then some (msgs1, notes, .ok ("", false))
    else
      match runToolCalls O msg.toolCalls msgs1 notes with
      | none => none
      | some (msgs2, notes2, some e) => some (msgs2, notes2, .error e)
      | some (msgs2, notes2, none) => some (msgs2, notes2, .ok ("", true))

/-- Run `k` consecutive research iterations, each of which must report
continuation (the `cont` branch of the Workflow-3 loop in
`ChatSession.Run`). -/
def iterResearch (O : ResearchOracles) : Nat → List Message → List String →
    Option (List Message × List String)
  | 0, msgs, notes => some (msgs, notes)
  | k + 1, msgs, notes =>
    match webResearchExecute O msgs notes with
    | some (m, n, .ok (_, true)) => iterResearch O k m n
    | _ => none

/-- The `ClarifyWithUserOutputSchema` struct: the structured clarify decision. -/
structure ClarifyOut where
  needClarification : Bool
  question : String
  verification : String
deriving Repr, DecidableEq

/-- The workflow `ClarifyWithUserWorkflow.Execute`: call the structured completion
over the clarify ledger; on "sufficient" append the verification as an
assistant message and stop the loop, on "needs clarification" append
the question and continue. -/
def clarifyExecute (oracle : List Message → Except String ClarifyOut)
    (msgs : List Message) : List Message × Except String (String × Bool) :=
  match oracle msgs with
  | .error e => (msgs, .error ("failed to create chat completion: " ++ e))
  | .ok r =>
    if !r.needClarification then
      (msgs ++ [{ role := "assistant", content := r.verification }],
        .ok (r.verification, false))
    else
      (msgs ++ [{ role := "assistant", content := r.question }],
        .ok (r.question, true))

/-- The workflow `ResearchBriefGenerationWorkflow.Execute`: produce the brief from the
clarify ledger and append it there as an assistant message. -/
def briefExecute (oracle : List Message → Except String String)
    (msgs : List Message) : List Message × Except String String :=
  match oracle msgs with
  | .error e => (msgs, .error ("failed to create chat completion: " ++ e))
  | .ok b => (msgs ++ [{ role := "assistant", content := b }], .ok b)

/-- Ghost record of which workflow `Execute`s the session invoked, in
order; used to observe which phases ran. -/
inductive PhaseEvent where
  | clarify
  | brief
  | research
  | report
deriving Repr, DecidableEq

/-- The `ChatSessionState` struct plus the ghost event trace. -/
structure RunState where
  conversation : List Message
  researchConversation : List Message
  researchBrief : String
  compressedResearchNotes : List String
  events : List PhaseEvent
deriving Repr, DecidableEq

/-- The state `NewChatSession` builds: all ledgers empty, brief empty. -/
def initialRunState : RunState :=
  { conversation := [], researchConversation := [], researchBrief := "",
    compressedResearchNotes := [], events := [] }

/-- Oracles for every external interaction of `ChatSession.Run`: the
user-input reader (`none` = end of input), and the capability calls of
the four workflows. -/
structure SessionOracles where
  userInput : Nat → Option String
  clarify : List Message → Except String ClarifyOut
  brief : List Message → Except String String
  research : ResearchOracles
  report : String → List String → Except String String

/-- The Workflow-1 loop of `ChatSession.Run`: read a line (end of input
breaks the loop), append it to the clarify ledger unless empty (an empty
line is reported and skipped but the turn still proceeds), run the
clarify workflow; a workflow error breaks the loop without being
surfaced, and a `false` continuation breaks it normally.  Returns the
state and how many input reads occurred; `none` is fuel exhaustion. -/
def clarifyLoop (O : SessionOracles) : Nat → Nat → RunState → Option (RunState × Nat)
  | 0, _, _ => none
  | fuel + 1, inputIdx, st =>
    match O.userInput inputIdx with
    | none => some (st, inputIdx)
    | some input =>
      let st1 := if input = "" then st
        else { st with conversation :=
          st.conversation ++ [{ role := "user", content := input }] }
      let p := clarifyExecute O.clarify st1.conversation
      let st2 := { st1 with conversation := p.1, events := st1.events ++ [.clarify] }
      match p.2 with
      | .error _ => some (st2, inputIdx + 1)
      | .ok (_, cont) =>
        if cont then clarifyLoop O fuel (inputIdx + 1) st2
        else some (st2, inputIdx + 1)

/-- The Workflow-3 loop of `ChatSession.Run`: run research iterations
until one reports no continuation, or until one errors — in which case
the loop merely breaks, without surfacing the error. -/
def researchLoop (O : SessionOracles) : Nat → RunState → Option RunState
  | 0, _ => none
  | fuel + 1, st =>
    match webResearchExecute O.research st.researchConversation
        st.compressedResearchNotes with
    | none => none
    | some (m, n, .error _) =>
        some { st with
                researchConversation := m
                compressedResearchNotes := n
                events := st.events ++ [.research] }
    | some (m, n, .ok (_, cont)) =>
      let st' := { st with
                    researchConversation := m
                    compressedResearchNotes := n
                    events := st.events ++ [.research] }
      if cont then researchLoop O fuel st' else some st'

/-- Workflows 2–4 of `ChatSession.Run`, which execute unconditionally
after the clarify loop exits (however it exits): generate the brief
(an error here is returned), store it and seed the research ledger with
it as a user message, run the research loop, then generate the report
(an error here is returned). -/
def sessionAfterClarify (O : SessionOracles) (fuel2 : Nat) (st : RunState) :
    Option (RunState × Except String Unit) :=
  let p := briefExecute O.brief st.conversation
  let st1 := { st with conversation := p.1, events := st.events ++ [.brief] }
  match p.2 with
  | .error e => some (st1, .error ("error generating response: " ++ e))
  | .ok b =>
    let st2 := { st1 with
                  researchBrief := b
                  researchConversation :=
                    st1.researchConversation ++ [{ role := "user", content := b }] }
    match researchLoop O fuel2 st2 with
    | none => none
    | some st3 =>
      let st4 := { st3 with events := st3.events ++ [.report] }
      match O.report st3.researchBrief st3.compressedResearchNotes with
      | .error e => some (st4, .error ("error generating response: " ++ e))
      | .ok _ => some (st4, .ok ())

/-- The session runner `ChatSession.Run`: the clarify loop followed unconditionally by the
brief, research and report phases. -/
def runSession (O : SessionOracles) (fuel1 fuel2 : Nat) :
    Option (RunState × Except String Unit) :=
  match clarifyLoop O fuel1 0 initialRunState with
  | none => none
  | some (st, _) => sessionAfterClarify O fuel2 st

/-- Tool calls whose name matches neither dispatch branch leave the
ledger, the notes and the error slot untouched. -/
lemma runToolCalls_all_unknown (O : ResearchOracles) (tcs : List ToolCall) :
    ∀ (msgs : List Message) (notes : List String),
      (∀ tc ∈ tcs, tc.name ≠ "search_tool" ∧ tc.name ≠ "reflection_tool") →
      runToolCalls O tcs msgs notes = some (msgs, notes, none) := by
  induction tcs with
  | nil => intro msgs notes _; rfl
  | cons tc rest ih =>
    intro msgs notes hall
    have htc := hall tc (List.mem_cons_self tc rest)
    have hrest := fun tc' hm => hall tc' (List.mem_cons_of_mem tc hm)
    simp only [runToolCalls, if_neg htc.1, if_neg htc.2]
    exact ih msgs notes hrest

/-- C10: a model turn whose tool invocations all carry unknown names is
silently skipped: only the assistant turn itself is appended (no
tool-role message), the notes are untouched, no error is returned, and
the iteration still reports continuation. -/
theorem unknown_tool_skipped (O : ResearchOracles) (msgs : List Message)
    (notes : List String) (msg : Message)
    (h1 : O.complete msgs = .ok msg) (h2 : msg.toolCalls ≠ [])
    (h3 : ∀ tc ∈ msg.toolCalls, tc.name ≠ "search_tool" ∧ tc.name ≠ "reflection_tool") :
    webResearchExecute O msgs notes = some (msgs ++ [msg], notes, .ok ("", true)) := by
  have hne : msg.toolCalls.isEmpty = false := by
    cases htc : msg.toolCalls with
    | nil => exact absurd htc h2
    | cons a t => rfl
  simp only [webResearchExecute, h1, hne, Bool.false_eq_true, if_false,
    runToolCalls_all_unknown O msg.toolCalls (msgs ++ [msg]) notes h3]

/-- An assistant turn carrying the given tool calls. -/
def assistantTurn (tcs : List ToolCall) : Message :=
  { role := "assistant", content := "", toolCalls := tcs }

/-- A concrete research oracle whose model turn always requests one
`think_tool` invocation, a name outside the dispatched set. -/
def unknownToolOracle : ResearchOracles where
  complete := fun _ => .ok (assistantTurn [⟨"call-1", "think_tool", "args"⟩])
  searchTool := fun _ => .ok ["doc"]
  parseReflection := fun s => .ok s
  arrivalsOf := fun results => (jobsOf (fun d => .success ⟨d, d⟩) results).flatten

/-- Witness for C10 at a concrete turn carrying one `think_tool` call. -/
theorem unknown_tool_skipped_witness :
    unknownToolOracle.complete [] = .ok (assistantTurn [⟨"call-1", "think_tool", "args"⟩]) ∧
    webResearchExecute unknownToolOracle [] ["note-0"] =
      some ([assistantTurn [⟨"call-1", "think_tool", "args"⟩]], ["note-0"],
        .ok ("", true)) :=
  ⟨rfl, by
    have h := unknown_tool_skipped unknownToolOracle [] ["note-0"]
      (assistantTurn [⟨"call-1", "think_tool", "args"⟩]) rfl (by simp [assistantTurn])
      (by
        intro tc hm
        simp only [assistantTurn, List.mem_singleton] at hm
        rw [hm]
        exact ⟨by simp, by simp⟩)
    simpa using h⟩

/-- A concrete research oracle whose model turn always requests one more
search, whose search always returns one document, and whose summarizer
jobs always succeed with in-order delivery. -/
def alwaysSearchOracle : ResearchOracles where
  complete := fun _ => .ok (assistantTurn [⟨"call-1", "search_tool", "q"⟩])
  searchTool := fun _ => .ok ["doc"]
  parseReflection := fun s => .ok s
  arrivalsOf := fun results => (jobsOf (fun d => .success ⟨d, d⟩) results).flatten

/-- C1 fails on the code: `WebResearchWorkflow.Execute` keeps no
search-call counter and never refuses a search.  Starting from a seeded
research ledger, six consecutive iterations each dispatch the requested
search (each appends one compressed note and one `search_tool` tool-role
message) and each — the sixth included — reports continuation:
`iterResearch` only recurses through iterations that returned
continuation `true`, yet it completes all six, ending with six
compressed notes and six dispatched search messages. -/
theorem research_budget_counterexample :
    (iterResearch alwaysSearchOracle 6 [{ role := "user", content := "brief" }] []).map
      (fun p => (p.2.length, (p.1.filter fun m => m.name = "search_tool").length)) =
      some (6, 6) := by
  decide

/-- C1 amended: the tool-call loop enforces no search budget in code.
Whatever the current ledger and note state — in particular however many
searches were already dispatched — a model turn carrying tool calls
whose processing succeeds makes the iteration dispatch them all and
report continuation; the 5-search limit exists only as prompt text sent
to the model. -/
theorem research_loop_no_budget (O : ResearchOracles) (msgs msgs' : List Message)
    (notes notes' : List String) (msg : Message)
    (h1 : O.complete msgs = .ok msg) (h2 : msg.toolCalls ≠ [])
    (h3 : runToolCalls O msg.toolCalls (msgs ++ [msg]) notes =
      some (msgs', notes', none)) :
    webResearchExecute O msgs notes = some (msgs', notes', .ok ("", true)) := by
  have hne : msg.toolCalls.isEmpty = false := by
    cases htc : msg.toolCalls with
    | nil => exact absurd htc h2
    | cons a t => rfl
  simp only [webResearchExecute, h1, hne, Bool.false_eq_true, if_false, h3]

/-- Witness for the amended C1: one more search is dispatched and the
iteration reports continuation. -/
theorem research_loop_no_budget_witness :
    alwaysSearchOracle.complete [{ role := "user", content := "brief" }] =
      .ok (assistantTurn [⟨"call-1", "search_tool", "q"⟩]) ∧
    (assistantTurn [⟨"call-1", "search_tool", "q"⟩]).toolCalls ≠ [] ∧
    webResearchExecute alwaysSearchOracle [{ role := "user", content := "brief" }] [] =
      some ([{ role := "user", content := "brief" },
          assistantTurn [⟨"call-1", "search_tool", "q"⟩],
          toolMessage ⟨"call-1", "search_tool", "q"⟩ (formatSummary ⟨"doc", "doc"⟩)],
        [formatSummary ⟨"doc", "doc"⟩], .ok ("", true)) :=
  ⟨rfl, by simp [assistantTurn],
    research_loop_no_budget alwaysSearchOracle _ _ _ _ _ rfl
      (by simp [assistantTurn]) (by decide)⟩

/-- A research oracle whose model turn reports a plain answer with no
tool calls (the normal research-phase exit). -/
def noToolResearchOracle : ResearchOracles where
  complete := fun _ => .ok { role := "assistant", content := "done" }
  searchTool := fun _ => .ok ["doc"]
  parseReflection := fun s => .ok s
  arrivalsOf := fun results => (jobsOf (fun d => .success ⟨d, d⟩) results).flatten

/-- The clarify decision "sufficient information, proceed". -/
def sufficientDecision : ClarifyOut :=
  { needClarification := false, question := "", verification := "scope confirmed" }

/-- A session oracle whose user input ends immediately (end of input on
the very first Clarify prompt) and whose later capability calls all
succeed. -/
def endOfInputOracle : SessionOracles where
  userInput := fun _ => none
  clarify := fun _ => .ok sufficientDecision
  brief := fun _ => .ok "the-brief"
  research := noToolResearchOracle
  report := fun _ _ => .ok "the-report"

/-- C5 fails on the code: with end of input on the very first Clarify
prompt, the clarify loop exits, but `Run` falls through to the remaining
workflows — the recorded phase trace still contains the Brief, Research
and Report phases (and the session returns nil). -/
theorem session_end_of_input_counterexample :
    (runSession endOfInputOracle 1 1).map (fun p => (p.1.events, p.2.toOption)) =
      some ([.brief, .research, .report], some ()) := by
  decide

/-- C5 amended: end of input during Clarify exits the clarify loop
without error, but does not end the session — the Brief, Research and
Report phases still run, exactly as they would after a normal clarify
exit, on the state as of input termination. -/
theorem session_end_of_input_amended (O : SessionOracles) (f1 f2 : Nat)
    (h : O.userInput 0 = none) :
    runSession O (f1 + 1) f2 = sessionAfterClarify O f2 initialRunState := by
  simp [runSession, clarifyLoop, h]

/-- Witness for the amended C5. -/
theorem session_end_of_input_amended_witness :
    endOfInputOracle.userInput 0 = none ∧
    runSession endOfInputOracle 1 1 = sessionAfterClarify endOfInputOracle 1 initialRunState :=
  ⟨rfl, session_end_of_input_amended endOfInputOracle 0 1 rfl⟩

/-- A research oracle whose completion call always fails. -/
def errorResearchOracle : ResearchOracles where
  complete := fun _ => .error "boom"
  searchTool := fun _ => .ok ["doc"]
  parseReflection := fun s => .ok s
  arrivalsOf := fun _ => []

/-- A session oracle: one user turn, clarify succeeds with "sufficient",
the brief and report succeed, but every research completion errors. -/
def researchErrorOracle : SessionOracles where
  userInput := fun n => if n = 0 then some "hi" else none
  clarify := fun _ => .ok sufficientDecision
  brief := fun _ => .ok "the-brief"
  research := errorResearchOracle
  report := fun _ _ => .ok "the-report"

/-- C6 fails on the code: a Research-phase capability error (the
completion call failing with "boom") does not abort the session — the
research loop merely breaks, the Report phase still runs, and the
session returns nil with the error never surfaced to the caller. -/
theorem session_error_policy_counterexample :
    (runSession researchErrorOracle 2 1).map (fun p => (p.1.events, p.2.toOption)) =
      some ([.clarify, .brief, .research, .report], some ()) := by
  decide

/-- C6 amended: capability errors in the Clarify and Research phases are
not fatal to the session — each merely breaks its phase loop without
being surfaced, and the session proceeds through the remaining phases;
in particular, after a failed Research phase the Report phase still runs
and the session can return success. -/
theorem session_error_policy_amended (O : SessionOracles) (f1 f2 : Nat)
    (u ec e b r : String)
    (h0 : O.userInput 0 = some u) (hu : u ≠ "")
    (hc : O.clarify [{ role := "user", content := u }] = .error ec)
    (hb : O.brief [{ role := "user", content := u }] = .ok b)
    (hr : O.research.complete [{ role := "user", content := b }] = .error e)
    (hrep : O.report b [] = .ok r) :
    ∃ st, runSession O (f1 + 1) (f2 + 1) = some (st, .ok ()) ∧
      st.events = [.clarify, .brief, .research, .report] := by
  have hloop : clarifyLoop O (f1 + 1) 0 initialRunState =
      some ({ initialRunState with conversation := [{ role := "user", content := u }], events := [.clarify] }, 1) := by
    simp [clarifyLoop, h0, hu, clarifyExecute, hc, initialRunState]
  refine ⟨⟨[{ role := "user", content := u }, { role := "assistant", content := b }],
    [{ role := "user", content := b }], b, [], [.clarify, .brief, .research, .report]⟩, ?_, rfl⟩
  simp only [runSession, hloop]
  simp [sessionAfterClarify, briefExecute, hb, researchLoop, webResearchExecute, hr,
    hrep, initialRunState]

/-- A session oracle: one user turn, the clarify completion errors, the
brief and report succeed, every research completion errors. -/
def clarifyErrorOracle : SessionOracles where
  userInput := fun n => if n = 0 then some "hi" else none
  clarify := fun _ => .error "cboom"
  brief := fun _ => .ok "the-brief"
  research := errorResearchOracle
  report := fun _ _ => .ok "the-report"

/-- Witness for the amended C6: a session whose Clarify and Research
phases both hit capability errors still runs all four phases and
returns success. -/
theorem session_error_policy_amended_witness :
    clarifyErrorOracle.userInput 0 = some "hi" ∧
    ("hi" : String) ≠ "" ∧
    clarifyErrorOracle.clarify [{ role := "user", content := "hi" }] = .error "cboom" ∧
    clarifyErrorOracle.brief [{ role := "user", content := "hi" }] = .ok "the-brief" ∧
    clarifyErrorOracle.research.complete [{ role := "user", content := "the-brief" }] = .error "boom" ∧
    clarifyErrorOracle.report "the-brief" [] = .ok "the-report" ∧
    ∃ st, runSession clarifyErrorOracle 1 1 = some (st, .ok ()) ∧
      st.events = [.clarify, .brief, .research, .report] :=
  ⟨rfl, by decide, rfl, rfl, rfl, rfl,
    session_error_policy_amended clarifyErrorOracle 0 0 "hi" "cboom" "boom"
      "the-brief" "the-report" rfl (by decide) rfl rfl rfl rfl⟩

/-- C7: a successful clarify iteration appends exactly one assistant
message — the question when clarification is needed, the verification
otherwise — and reports continuation exactly when clarification is
needed; and when the first call answers "no clarification needed", the
clarify loop finishes after exactly one user turn. -/
theorem clarify_iteration (O : SessionOracles) (f : Nat) (u : String)
    (msgs : List Message) (r r' : ClarifyOut)
    (hm : O.clarify msgs = .ok r')
    (h0 : O.userInput 0 = some u) (hu : u ≠ "")
    (hc : O.clarify [{ role := "user", content := u }] = .ok r)
    (hn : r.needClarification = false) :
    clarifyExecute O.clarify msgs =
      (msgs ++ [{ role := "assistant", content := if r'.needClarification then r'.question else r'.verification }],
        .ok ((if r'.needClarification then r'.question else r'.verification),
          r'.needClarification)) ∧
    clarifyLoop O (f + 1) 0 initialRunState =
      some ({ initialRunState with conversation := [{ role := "user", content := u }, { role := "assistant", content := r.verification }], events := [.clarify] }, 1) := by
  constructor
  · cases hb : r'.needClarification <;> simp [clarifyExecute, hm, hb]
  · simp [clarifyLoop, h0, hu, clarifyExecute, hc, hn, initialRunState]

/-- Witness for C7 at a concrete one-turn session whose clarify call
immediately reports "sufficient". -/
theorem clarify_iteration_witness :
    researchErrorOracle.clarify [{ role := "user", content := "hi" }] = .ok sufficientDecision ∧
    researchErrorOracle.userInput 0 = some "hi" ∧
    ("hi" : String) ≠ "" ∧
    sufficientDecision.needClarification = false ∧
    (clarifyExecute researchErrorOracle.clarify [{ role := "user", content := "hi" }] =
      ([{ role := "user", content := "hi" }] ++ [{ role := "assistant", content := if sufficientDecision.needClarification then sufficientDecision.question else sufficientDecision.verification }],
        .ok ((if sufficientDecision.needClarification then sufficientDecision.question else sufficientDecision.verification),
          sufficientDecision.needClarification)) ∧
     clarifyLoop researchErrorOracle 1 0 initialRunState =
      some ({ initialRunState with conversation := [{ role := "user", content := "hi" }, { role := "assistant", content := sufficientDecision.verification }], events := [.clarify] }, 1)) :=
  ⟨rfl, rfl, by decide, rfl,
    clarify_iteration researchErrorOracle 0 "hi" [{ role := "user", content := "hi" }]
      sufficientDecision sufficientDecision rfl rfl (by decide) rfl rfl⟩

/-- Tool-call processing only appends to the research ledger. -/
lemma runToolCalls_appends (O : ResearchOracles) (tcs : List ToolCall) :
    ∀ (msgs : List Message) (notes : List String) (msgs' : List Message)
      (notes' : List String) (oe : Option String),
      runToolCalls O tcs msgs notes = some (msgs', notes', oe) →
      ∃ t, msgs' = msgs ++ t := by
  induction tcs with
  | nil =>
    intro msgs notes msgs' notes' oe h
    simp only [runToolCalls, Option.some.injEq, Prod.mk.injEq] at h
    exact ⟨[], by simp [h.1.symm]⟩
  | cons tc rest ih =>
    intro msgs notes msgs' notes' oe h
    by_cases hs : tc.name = "search_tool"
    · rw [runToolCalls, if_pos hs] at h
      cases hsr : O.searchTool tc.arguments with
      | error e =>
        rw [hsr] at h
        simp only [Option.some.injEq, Prod.mk.injEq] at h
        exact ⟨[], by simp [h.1.symm]⟩
      | ok results =>
        cases hsm : summarizeWebSearchResult results notes (O.arrivalsOf results) with
        | none =>
          simp only [hsr, hsm] at h
          exact Option.noConfusion h
        | some p =>
          rcases p with ⟨pr, pn⟩
          cases pr with
          | error e =>
            simp only [hsr, hsm, Option.some.injEq, Prod.mk.injEq] at h
            exact ⟨[], by simp [h.1.symm]⟩
          | ok joined =>
            simp only [hsr, hsm] at h
            rcases ih _ _ _ _ _ h with ⟨t, ht⟩
            exact ⟨toolMessage tc joined :: t, by simp [ht]⟩
    · by_cases hrf : tc.name = "reflection_tool"
      · rw [runToolCalls, if_neg hs, if_pos hrf] at h
        cases hpr : O.parseReflection tc.arguments with
        | error e =>
          rw [hpr] at h
          simp only [Option.some.injEq, Prod.mk.injEq] at h
          exact ⟨[], by simp [h.1.symm]⟩
        | ok refl' =>
          rw [hpr] at h
          rcases ih _ _ _ _ _ h with ⟨t, ht⟩
          exact ⟨toolMessage tc ("Reflection recorded: " ++ refl') :: t, by simp [ht]⟩
      · rw [runToolCalls, if_neg hs, if_neg hrf] at h
        exact ih _ _ _ _ _ h

/-- A research iteration only appends to the research ledger. -/
lemma webResearchExecute_appends (O : ResearchOracles) (msgs : List Message)
    (notes : List String) (msgs' : List Message) (notes' : List String)
    (res : Except String (String × Bool))
    (h : webResearchExecute O msgs notes = some (msgs', notes', res)) :
    ∃ t, msgs' = msgs ++ t := by
  rw [webResearchExecute] at h
  cases hc : O.complete msgs with
  | error e =>
    rw [hc] at h
    simp only [Option.some.injEq, Prod.mk.injEq] at h
    exact ⟨[], by simp [h.1.symm]⟩
  | ok msg =>
    rw [hc] at h
    simp only at h
    by_cases he : msg.toolCalls.isEmpty
    · rw [if_pos he] at h
      simp only [Option.some.injEq, Prod.mk.injEq] at h
      exact ⟨[msg], h.1.symm⟩
    · rw [if_neg he] at h
      cases hrt : runToolCalls O msg.toolCalls (msgs ++ [msg]) notes with
      | none => rw [hrt] at h; exact absurd h (by simp)
      | some p =>
        rw [hrt] at h
        rcases p with ⟨m2, n2, oe⟩
        rcases runToolCalls_appends O msg.toolCalls _ _ _ _ _ hrt with ⟨t, ht⟩
        cases oe with
        | none =>
          simp only [Option.some.injEq, Prod.mk.injEq] at h
          exact ⟨msg :: t, by rw [← h.1, ht]; simp⟩
        | some e =>
          simp only [Option.some.injEq, Prod.mk.injEq] at h
          exact ⟨msg :: t, by rw [← h.1, ht]; simp⟩

/-- The research loop never writes the brief or the clarify ledger, and
only appends to the research ledger. -/
lemma researchLoop_preserves (O : SessionOracles) :
    ∀ (f : Nat) (st st' : RunState), researchLoop O f st = some st' →
      st'.researchBrief = st.researchBrief ∧ st'.conversation = st.conversation ∧
      ∃ t, st'.researchConversation = st.researchConversation ++ t := by
  intro f
  induction f with
  | zero => intro st st' h; exact absurd h (by simp [researchLoop])
  | succ f ih =>
    intro st st' h
    rw [researchLoop] at h
    cases hex : webResearchExecute O.research st.researchConversation
        st.compressedResearchNotes with
    | none => rw [hex] at h; exact absurd h (by simp)
    | some p =>
      rcases p with ⟨m, n, res⟩
      rcases webResearchExecute_appends _ _ _ _ _ _ hex with ⟨t, ht⟩
      cases res with
      | error e =>
        simp only [hex] at h
        obtain rfl := Option.some.inj h
        exact ⟨rfl, rfl, t, ht⟩
      | ok pr =>
        rcases pr with ⟨s, cont⟩
        cases cont with
        | false =>
          simp only [hex, Bool.false_eq_true, if_false] at h
          obtain rfl := Option.some.inj h
          exact ⟨rfl, rfl, t, ht⟩
        | true =>
          simp only [hex, if_true] at h
          rcases ih _ _ h with ⟨h1, h2, t', ht'⟩
          refine ⟨h1, h2, t ++ t', ?_⟩
          rw [ht']
          simp [ht]

/-- The clarify loop never touches the research ledger, the brief or the
compressed notes. -/
lemma clarifyLoop_preserves (O : SessionOracles) :
    ∀ (f idx : Nat) (st st' : RunState) (k : Nat),
      clarifyLoop O f idx st = some (st', k) →
      st'.researchConversation = st.researchConversation ∧
      st'.researchBrief = st.researchBrief := by
  intro f
  induction f with
  | zero => intro idx st st' k h; exact absurd h (by simp [clarifyLoop])
  | succ f ih =>
    intro idx st st' k h
    rw [clarifyLoop] at h
    cases hin : O.userInput idx with
    | none =>
      rw [hin] at h
      simp only [Option.some.injEq, Prod.mk.injEq] at h
      rw [← h.1]
      exact ⟨rfl, rfl⟩
    | some input =>
      rw [hin] at h
      simp only at h
      by_cases hemp : input = ""
      · rw [if_pos hemp] at h
        cases hres : (clarifyExecute O.clarify st.conversation).2 with
        | error e =>
          simp only [hres] at h
          obtain h' := Option.some.inj h
          injection h' with h1 h2
          rw [← h1]
          exact ⟨rfl, rfl⟩
        | ok pr =>
          rcases pr with ⟨s, cont⟩
          cases cont with
          | false =>
            simp only [hres, Bool.false_eq_true, if_false] at h
            obtain h' := Option.some.inj h
            injection h' with h1 h2
            rw [← h1]
            exact ⟨rfl, rfl⟩
          | true =>
            simp only [hres, if_true] at h
            have hr := ih (idx + 1) _ st' k h
            exact hr
      · rw [if_neg hemp] at h
        cases hres : (clarifyExecute O.clarify (st.conversation ++ [{ role := "user", content := input }])).2 with
        | error e =>
          simp only [hres] at h
          obtain h' := Option.some.inj h
          injection h' with h1 h2
          rw [← h1]
          exact ⟨rfl, rfl⟩
        | ok pr =>
          rcases pr with ⟨s, cont⟩
          cases cont with
          | false =>
            simp only [hres, Bool.false_eq_true, if_false] at h
            obtain h' := Option.some.inj h
            injection h' with h1 h2
            rw [← h1]
            exact ⟨rfl, rfl⟩
          | true =>
            simp only [hres, if_true] at h
            have hr := ih (idx + 1) _ st' k h
            exact hr

/-- C8: when the Brief phase produces `b`, the session's final research
brief is exactly `b` — no later phase writes the field again — and the
research ledger's first message is the brief as a user-role message,
seeded before any research iteration appends to that ledger. -/
theorem research_brief_set_once (O : SessionOracles) (f1 f2 k : Nat)
    (stc st : RunState) (b : String) (res : Except String Unit)
    (h1 : clarifyLoop O f1 0 initialRunState = some (stc, k))
    (h2 : O.brief stc.conversation = .ok b)
    (h3 : runSession O f1 f2 = some (st, res)) :
    st.researchBrief = b ∧
    st.researchConversation.head? = some { role := "user", content := b } := by
  have hrc : stc.researchConversation = [] := by
    have hp := clarifyLoop_preserves O f1 0 initialRunState stc k h1
    simpa [initialRunState] using hp.1
  rw [runSession] at h3
  simp only [h1] at h3
  rw [sessionAfterClarify] at h3
  simp only [briefExecute, h2] at h3
  split at h3
  · exact absurd h3 (by simp)
  next st3 hres =>
    rcases researchLoop_preserves O f2 _ st3 hres with ⟨hb3, _, t, ht3⟩
    split at h3 <;>
    · obtain h' := Option.some.inj h3
      injection h' with hst _
      rw [← hst]
      refine ⟨hb3, ?_⟩
      show st3.researchConversation.head? = _
      rw [ht3]
      simp [hrc]

/-- Witness for C8 on a concrete full session run. -/
theorem research_brief_set_once_witness :
    clarifyLoop endOfInputOracle 1 0 initialRunState = some (initialRunState, 0) ∧
    endOfInputOracle.brief initialRunState.conversation = .ok "the-brief" ∧
    runSession endOfInputOracle 1 1 =
      some (⟨[⟨"assistant", "the-brief", [], "", ""⟩],
        [⟨"user", "the-brief", [], "", ""⟩, ⟨"assistant", "done", [], "", ""⟩],
        "the-brief", [], [.brief, .research, .report]⟩, .ok ()) ∧
    ((⟨[⟨"assistant", "the-brief", [], "", ""⟩],
        [⟨"user", "the-brief", [], "", ""⟩, ⟨"assistant", "done", [], "", ""⟩],
        "the-brief", [], [.brief, .research, .report]⟩ : RunState).researchBrief = "the-brief" ∧
      (RunState.researchConversation ⟨[⟨"assistant", "the-brief", [], "", ""⟩],
        [⟨"user", "the-brief", [], "", ""⟩, ⟨"assistant", "done", [], "", ""⟩],
        "the-brief", [], [.brief, .research, .report]⟩).head? =
        some { role := "user", content := "the-brief" }) :=
  ⟨rfl, rfl, rfl,
    research_brief_set_once endOfInputOracle 1 1 0 initialRunState _ "the-brief"
      (.ok ()) rfl rfl rfl⟩

end DeepResearch
